import Mathlib

/-!
Verification of the smerge subscription-merging service against its
natural-language specification.  Go code is shallowly embedded: byte strings
become lists of naturals, Go maps become association lists, float64 token
arithmetic becomes exact rationals, and the wrapping int64 arithmetic of the
retry delay is made explicit with a two's-complement truncation.
-/

set_option maxRecDepth 8000

namespace SMerge

/-- Byte strings (Go `[]byte` / `string`) are lists of naturals. -/
abbrev ByteStr := List Nat

/-- Go byte-wise string comparison `a <= b`, the order used by `sort.Strings`. -/
def byteLe : ByteStr → ByteStr → Bool
  | [], _ => true
  | _ :: _, [] => false
  | a :: as, b :: bs => if a < b then true else if b < a then false else byteLe as bs

/-- The order relation induced by `byteLe`. -/
def ByteLeRel (a b : ByteStr) : Prop := byteLe a b = true

instance : DecidableRel ByteLeRel := fun a b => decEq (byteLe a b) true

theorem byteLe_total (a b : ByteStr) : byteLe a b = true ∨ byteLe b a = true := by
  induction a generalizing b with
  | nil => exact Or.inl rfl
  | cons x xs ih =>
    cases b with
    | nil => exact Or.inr rfl
    | cons y ys =>
      simp only [byteLe]
      rcases Nat.lt_trichotomy x y with h | h | h
      · left
        simp [h]
      · subst h
        have hx : ¬ x < x := Nat.lt_irrefl x
        rcases ih ys with h2 | h2
        · left; simp [hx, h2]
        · right; simp [hx, h2]
      · right
        simp [h]

theorem byteLe_trans {a b c : ByteStr} (hab : byteLe a b = true)
    (hbc : byteLe b c = true) : byteLe a c = true := by
  induction a generalizing b c with
  | nil => rfl
  | cons x xs ih =>
    cases b with
    | nil => simp [byteLe] at hab
    | cons y ys =>
      cases c with
      | nil => simp [byteLe] at hbc
      | cons z zs =>
        simp only [byteLe] at hab hbc ⊢
        rcases Nat.lt_trichotomy x y with hxy | hxy | hxy
        · rcases Nat.lt_trichotomy y z with hyz | hyz | hyz
          · simp [Nat.lt_trans hxy hyz]
          · subst hyz; simp [hxy]
          · simp [hyz, Nat.lt_asymm hyz] at hbc
        · subst hxy
          rcases Nat.lt_trichotomy x z with hxz | hxz | hxz
          · simp [hxz]
          · subst hxz
            simp only [Nat.lt_irrefl, if_false] at hab hbc ⊢
            exact ih hab hbc
          · simp [hxz, Nat.lt_asymm hxz] at hbc
        · simp [hxy, Nat.lt_asymm hxy] at hab

instance : IsTotal ByteStr ByteLeRel := ⟨byteLe_total⟩

instance : IsTrans ByteStr ByteLeRel := ⟨fun _ _ _ => byteLe_trans⟩

/-- Shallow embedding of `sort.Strings`: sort ascending in the byte-wise order. -/
def sortStrings (urls : List ByteStr) : List ByteStr := List.insertionSort ByteLeRel urls

/-- Go `strings.Join(urls, "\n")` at the byte level: tokens joined by LF (0x0A),
    no trailing separator. -/
def joinLF : List ByteStr → ByteStr
  | [] => []
  | [u] => u
  | u :: rest => u ++ 10 :: joinLF rest

/-- The byte of the standard base64 alphabet at index `n` (0 ≤ n < 64). -/
def b64Char (n : Nat) : Nat :=
  if n < 26 then 65 + n
  else if n < 52 then 97 + (n - 26)
  else if n < 62 then 48 + (n - 52)
  else if n = 62 then 43
  else 47

/-- Shallow embedding of `base64.StdEncoding.Encode`: three input bytes become four
    alphabet bytes; a final partial quantum is padded with `=` (byte 61). -/
def base64Encode : ByteStr → ByteStr
  | b0 :: b1 :: b2 :: rest =>
      b64Char (b0 / 4) :: b64Char (b0 % 4 * 16 + b1 / 16) ::
        b64Char (b1 % 16 * 4 + b2 / 64) :: b64Char (b2 % 64) :: base64Encode rest
  | [b0, b1] => [b64Char (b0 / 4), b64Char (b0 % 4 * 16 + b1 / 16), b64Char (b1 % 16 * 4), 61]
  | [b0] => [b64Char (b0 / 4), b64Char (b0 % 4 * 16), 61, 61]
  | [] => []

/-- Shallow embedding of `crawler.prepareGroupResult`: an empty url list yields Go `nil`
    (the empty byte string); otherwise the urls are sorted, joined by LF and, when the
    group is encoded, base64-encoded. -/
def prepareGroupResult (urls : List ByteStr) (encoded : Bool) : ByteStr :=
  if urls = [] then []
  else
    let groupResult := joinLF (sortStrings urls)
    if encoded then base64Encode groupResult else groupResult

/-- The specification's `encode_if_needed`. -/
def encodeIfNeeded (encoded : Bool) (s : ByteStr) : ByteStr :=
  if encoded then base64Encode s else s

/-- The artifact formula stated by the specification:
    `encode_if_needed(join("\n", sort(tokens)))`. -/
def specArtifact (urls : List ByteStr) (encoded : Bool) : ByteStr :=
  encodeIfNeeded encoded (joinLF (sortStrings urls))

/-- One subscription result as collected by `fetchGroup`: the filtered token list on
    success, or an error. -/
structure FetchResult where
  subscription : ByteStr
  urls : List ByteStr
  error : Option ByteStr
deriving DecidableEq

/-- The collecting goroutine of `fetchGroup`: token lists of successful results are
    concatenated in arrival order, failed results are logged and skipped. -/
def collectUrls : List FetchResult → List ByteStr
  | [] => []
  | r :: rs => if r.error = none then r.urls ++ collectUrls rs else collectUrls rs

/-- The artifact `fetchGroup` publishes to the result cache for one refresh. -/
def fetchGroupPublish (results : List FetchResult) (encoded : Bool) : ByteStr :=
  prepareGroupResult (collectUrls results) encoded

theorem prepareGroupResult_eq_specArtifact (urls : List ByteStr) (encoded : Bool) :
    prepareGroupResult urls encoded = specArtifact urls encoded := by
  by_cases h : urls = []
  · subst h
    cases encoded <;> rfl
  · simp [prepareGroupResult, specArtifact, encodeIfNeeded, h]

theorem collectUrls_all_failed {results : List FetchResult}
    (h : ∀ r ∈ results, r.error ≠ none) : collectUrls results = [] := by
  induction results with
  | nil => rfl
  | cons r rs ih =>
    have hr : r.error ≠ none := h r (List.mem_cons_self r rs)
    simp only [collectUrls, if_neg hr]
    exact ih fun x hx => h x (List.mem_cons_of_mem r hx)

/-- Adjacent-duplicate removal on a (sorted) list: realizes the "union" reading of the
    specification, in which each distinct token appears once. -/
def dedupSorted : List ByteStr → List ByteStr
  | [] => []
  | [u] => [u]
  | u :: v :: rest => if u = v then dedupSorted (v :: rest) else u :: dedupSorted (v :: rest)

/-- Artifact as C2 describes it: the sorted union of the tokens, each distinct token at
    most once, joined by LF and optionally encoded. -/
def specUnionArtifact (urls : List ByteStr) (encoded : Bool) : ByteStr :=
  encodeIfNeeded encoded (joinLF (dedupSorted (sortStrings urls)))

/-- C1: for every group and every completed refresh, the published artifact equals
`encode_if_needed(join("\n", sort(concat(successful url lists))))`; a refresh in which
every subscription fails publishes the empty artifact. -/
theorem c1_published_artifact_eq_spec (results : List FetchResult) (encoded : Bool) :
    fetchGroupPublish results encoded = specArtifact (collectUrls results) encoded ∧
    ((∀ r ∈ results, r.error ≠ none) → fetchGroupPublish results encoded = []) := by
  constructor
  · exact prepareGroupResult_eq_specArtifact _ _
  · intro h
    simp [fetchGroupPublish, collectUrls_all_failed h, prepareGroupResult]

/-- Witness for C1 at a concrete all-failures refresh. -/
theorem c1_published_artifact_eq_spec_witness :
    fetchGroupPublish [⟨[115], [[97]], some [101]⟩] true = [] :=
  (c1_published_artifact_eq_spec [⟨[115], [[97]], some [101]⟩] true).2 (by decide)

/-- C2 counterexample: two successful subscriptions both returning the token "a" publish
"a\na" (duplicates survive), which differs from the sorted union "a". -/
theorem c2_counterexample :
    fetchGroupPublish [⟨[115], [[97]], none⟩, ⟨[116], [[97]], none⟩] false = [97, 10, 97] ∧
    specUnionArtifact (collectUrls [⟨[115], [[97]], none⟩, ⟨[116], [[97]], none⟩]) false =
      [97] ∧
    fetchGroupPublish [⟨[115], [[97]], none⟩, ⟨[116], [[97]], none⟩] false ≠
      specUnionArtifact (collectUrls [⟨[115], [[97]], none⟩, ⟨[116], [[97]], none⟩]) false := by
  decide

/-- C2 amended: the published artifact is the byte-wise ascending sorted concatenation of
the successful token lists with duplicates preserved — every token keeps its full
multiplicity from the concatenation (permutation); no deduplication is performed. -/
theorem c2_amended_sorted_concatenation (results : List FetchResult) (encoded : Bool) :
    fetchGroupPublish results encoded =
      encodeIfNeeded encoded (joinLF (sortStrings (collectUrls results))) ∧
    List.Perm (sortStrings (collectUrls results)) (collectUrls results) ∧
    List.Sorted ByteLeRel (sortStrings (collectUrls results)) := by
  exact ⟨prepareGroupResult_eq_specArtifact _ _,
    List.perm_insertionSort ByteLeRel (collectUrls results),
    List.sorted_insertionSort ByteLeRel _⟩

/-- Errors produced inside the retry transport. `ctxErr` is `ctx.Err()` observed in the
    delay select (`deadline` distinguishes DeadlineExceeded from Canceled), `requestErr`
    is `errors.Join(ErrRequest, cause)` (recording whether the cause satisfies
    `errors.Is(cause, context.Canceled)`), `statusErr` is the classifier's
    "status code: d" error, `joinedClose e` is `errors.Join(e, closeErr)`, and
    `maxRetries last` is `errors.Join(ErrMaxRetries, last)` or the bare `ErrMaxRetries`
    when `last` is `none`. -/
inductive RetryErr where
  | ctxErr (deadline : Bool)
  | requestErr (underlyingCanceled : Bool)
  | statusErr (code : Nat)
  | joinedClose (e : RetryErr)
  | maxRetries (last : Option RetryErr)

/-- Go `errors.Is(e, context.Canceled)` over the error shapes above. -/
def RetryErr.isCanceled : RetryErr → Bool
  | .ctxErr deadline => !deadline
  | .requestErr c => c
  | .joinedClose e => e.isCanceled
  | .statusErr _ => false
  | .maxRetries _ => false

/-- An HTTP response as the retry loop sees it: its status code, and whether closing its
    body would fail (environment behavior). -/
structure HttpResponse where
  status : Nat
  closeFails : Bool
deriving DecidableEq

/-- Environment behavior of one attempt of `RetryRoundTripper.do`: the context fires
    during the delay wait, or the underlying transport returns an error, or it returns a
    response. -/
inductive AttemptEvent where
  | ctxDone (deadline : Bool)
  | transportErr (underlyingCanceled : Bool)
  | response (resp : HttpResponse)
deriving DecidableEq

/-- Shallow embedding of `RetryRoundTripper.do`: result is (response, error, whether the
    underlying transport was invoked). On `ctxDone` the context error is returned before
    any request is issued; a transport error is wrapped in `ErrRequest`. -/
def doAttempt : AttemptEvent → Option HttpResponse × Option RetryErr × Bool
  | .ctxDone d => (none, some (.ctxErr d), false)
  | .transportErr c => (none, some (.requestErr c), true)
  | .response r => (some r, none, true)

/-- Shallow embedding of `retryInternalServerError`: report a retry error exactly for
    HTTP status ≥ 500. -/
def retryInternalServerError (resp : HttpResponse) : Option RetryErr :=
  if resp.status < 500 then none else some (.statusErr resp.status)

/-- Shallow embedding of `stopRetry`: result is (stop, error, whether the response body
    was closed here). An error stops the loop only when it is `context.Canceled`; a
    retryable response has its body closed (a close failure is joined into the retry
    error) and the loop continues; otherwise the loop stops with the response. The
    `(none, none)` input does not occur: `do` returns a response or an error. -/
def stopRetry (err : Option RetryErr) (resp : Option HttpResponse)
    (retryCheck : HttpResponse → Option RetryErr) : Bool × Option RetryErr × Bool :=
  match err with
  | some e => if e.isCanceled then (true, some e, false) else (false, some e, false)
  | none =>
    match resp with
    | some r =>
      match retryCheck r with
      | some retryErr =>
        (false, some (if r.closeFails then .joinedClose retryErr else retryErr), true)
      | none => (true, none, false)
    | none => (true, none, false)

/-- The attempt loop of `RetryRoundTripper.RoundTrip`: `fuel` is the number of attempts
    left, `i` the current attempt index, `lastErr` the error of the previous attempt and
    `calls` the number of underlying transport invocations so far. Result is (response,
    error, total underlying invocations). -/
def rtLoop (events : Nat → AttemptEvent) (retryCheck : HttpResponse → Option RetryErr) :
    Nat → Nat → Option RetryErr → Nat → Option HttpResponse × Option RetryErr × Nat
  | 0, _, lastErr, calls => (none, some (.maxRetries lastErr), calls)
  | fuel + 1, i, _, calls =>
    let res := doAttempt (events i)
    let calls1 := if res.2.2 then calls + 1 else calls
    let stopRes := stopRetry res.2.1 res.1 retryCheck
    if stopRes.1 then (res.1, stopRes.2.1, calls1)
    else rtLoop events retryCheck fuel (i + 1) stopRes.2.1 calls1

/-- Shallow embedding of `RetryRoundTripper.RoundTrip` with `maxRetries` attempts. -/
def RoundTrip (maxRetries : Nat) (events : Nat → AttemptEvent)
    (retryCheck : HttpResponse → Option RetryErr) :
    Option HttpResponse × Option RetryErr × Nat :=
  rtLoop events retryCheck maxRetries 0 none 0

theorem rtLoop_calls_le (events : Nat → AttemptEvent)
    (retryCheck : HttpResponse → Option RetryErr) (fuel i : Nat) (lastErr : Option RetryErr)
    (calls : Nat) : (rtLoop events retryCheck fuel i lastErr calls).2.2 ≤ calls + fuel := by
  induction fuel generalizing i lastErr calls with
  | zero => simp [rtLoop]
  | succ n ih =>
    simp only [rtLoop]
    have hcalls : (if (doAttempt (events i)).2.2 then calls + 1 else calls) ≤ calls + 1 := by
      split <;> omega
    split
    · simpa using Nat.le_trans hcalls (by omega)
    · exact Nat.le_trans (ih _ _ _) (by omega)

/-- C3: the retry transport invokes the underlying transport at most `maxRetries` times
per RoundTrip call, and with `maxRetries = 0` it returns the bare `ErrMaxRetries` (no
underlying cause) without issuing any request. -/
theorem c3_retry_count_bounded (n : Nat) (events : Nat → AttemptEvent)
    (retryCheck : HttpResponse → Option RetryErr) :
    (RoundTrip n events retryCheck).2.2 ≤ n ∧
    RoundTrip 0 events retryCheck = (none, some (.maxRetries none), 0) := by
  constructor
  · simpa using rtLoop_calls_le events retryCheck n 0 none 0
  · rfl

/-- C4: the default classifier reports retryable exactly for status ≥ 500; a retryable
response has its body closed (any close failure joined into the retry error) and the
loop continues; a non-retryable response stops the loop, which returns that response with
its body open (and one more underlying invocation counted). -/
theorem c4_classifier_and_stop (r : HttpResponse) :
    ((retryInternalServerError r).isSome ↔ 500 ≤ r.status) ∧
    (500 ≤ r.status →
      stopRetry none (some r) retryInternalServerError =
        (false,
         some (if r.closeFails then .joinedClose (.statusErr r.status)
               else .statusErr r.status),
         true)) ∧
    (r.status < 500 →
      stopRetry none (some r) retryInternalServerError = (true, none, false)) ∧
    (∀ (events : Nat → AttemptEvent) (fuel i : Nat) (lastErr : Option RetryErr)
        (calls : Nat), events i = .response r → r.status < 500 →
      rtLoop events retryInternalServerError (fuel + 1) i lastErr calls =
        (some r, none, calls + 1)) := by
  refine ⟨?_, ?_, ?_, ?_⟩
  · constructor
    · intro h
      by_contra hlt
      simp [retryInternalServerError, Nat.lt_of_not_le hlt] at h
    · intro h
      simp [retryInternalServerError, Nat.not_lt.mpr h]
  · intro h
    simp [stopRetry, retryInternalServerError, Nat.not_lt.mpr h]
  · intro h
    simp [stopRetry, retryInternalServerError, h]
  · intro events fuel i lastErr calls hev h
    simp [rtLoop, hev, doAttempt, stopRetry, retryInternalServerError, h]

/-- Witness for C4 at status 502 with a failing close and at status 200. -/
theorem c4_classifier_and_stop_witness :
    stopRetry none (some ⟨502, true⟩) retryInternalServerError =
      (false, some (.joinedClose (.statusErr 502)), true) ∧
    stopRetry none (some ⟨200, false⟩) retryInternalServerError = (true, none, false) := by
  constructor
  · have h := (c4_classifier_and_stop ⟨502, true⟩).2.1 (by decide)
    simpa using h
  · exact (c4_classifier_and_stop ⟨200, false⟩).2.2.1 (by decide)

/-- Two's-complement truncation of an unbounded integer to the int64 range. -/
def toInt64 (n : Int) : Int := (n + 2 ^ 63) % 2 ^ 64 - 2 ^ 63

/-- Shallow embedding of `calcDelay`: the returned `time.Duration` in nanoseconds, with
    Go's wrapping int64 arithmetic made explicit. `delay` is the int64 left shift
    `1 << (attempt - 1)`, the result is `time.Duration(20 * delay) * time.Millisecond`. -/
def calcDelay (attempt : Nat) : Int :=
  if attempt = 0 then 0
  else
    let delay := toInt64 (2 ^ (attempt - 1))
    toInt64 (toInt64 (20 * delay) * 1000000)

/-- The delay the specification states, in nanoseconds: 0 for attempt 0, otherwise
    20 ms · 2^(i-1). -/
def specDelay (attempt : Nat) : Int :=
  if attempt = 0 then 0 else 20000000 * 2 ^ (attempt - 1)

/-- C8 counterexample: at attempt index 40 the int64 nanosecond count overflows, so the
code returns a wrapped (negative) duration instead of 20 ms · 2^39. -/
theorem c8_counterexample :
    calcDelay 40 = -7451627795949551616 ∧ specDelay 40 = 10995116277760000000 ∧
    calcDelay 40 ≠ specDelay 40 := by
  decide

/-- C8 amended: the default delay is 0 for attempt 0 and 20 ms · 2^(i-1) for attempt
i ≥ 1 as long as no int64 overflow occurs, i.e. for all attempt indices i < 40; beyond
that the wrapping arithmetic departs from the formula. -/
theorem c8_amended_delay_formula : ∀ i : Nat, i < 40 → calcDelay i = specDelay i := by
  decide

/-- Witness for C8 at attempt index 3: the delay is 80 ms. -/
theorem c8_amended_delay_formula_witness : calcDelay 3 = specDelay 3 :=
  c8_amended_delay_formula 3 (by decide)

/-- Value of an alphabet byte in standard base64, if any. -/
def b64Value (c : Nat) : Option Nat :=
  if 65 ≤ c ∧ c ≤ 90 then some (c - 65)
  else if 97 ≤ c ∧ c ≤ 122 then some (c - 97 + 26)
  else if 48 ≤ c ∧ c ≤ 57 then some (c - 48 + 52)
  else if c = 43 then some 62
  else if c = 47 then some 63
  else none

/-- Decoding of complete base64 quanta (4 bytes each, padding `=` = byte 61 allowed only
    in the final quantum); `none` models Go's CorruptInputError. -/
def b64Quanta : List Nat → Option ByteStr
  | [] => some []
  | c0 :: c1 :: c2 :: c3 :: rest =>
    match b64Value c0, b64Value c1 with
    | some v0, some v1 =>
      if c2 = 61 then
        if c3 = 61 ∧ rest = [] then some [v0 * 4 + v1 / 16] else none
      else
        match b64Value c2 with
        | some v2 =>
          if c3 = 61 then
            if rest = [] then some [v0 * 4 + v1 / 16, v1 % 16 * 16 + v2 / 4] else none
          else
            match b64Value c3 with
            | some v3 =>
              (b64Quanta rest).map
                (fun tl =>
                  (v0 * 4 + v1 / 16) :: (v1 % 16 * 16 + v2 / 4) :: (v2 % 4 * 64 + v3) :: tl)
            | none => none
        | none => none
    | _, _ => none
  | _ => none

/-- Shallow embedding of `base64.StdEncoding.Decode`: newline bytes are skipped as in Go,
    then whole quanta are decoded. -/
def base64Decode (s : ByteStr) : Option ByteStr :=
  b64Quanta (s.filter (fun c => c ≠ 10 ∧ c ≠ 13))

/-- Errors `Crawler.Get` surfaces: `ErrNotFoundGroup` and `ErrGroupDecode`. -/
inductive GetError where
  | notFoundGroup
  | groupDecode
deriving DecidableEq

/-- Shallow embedding of `crawler.decodeGroup`: base64-decode the stored artifact,
    reporting `ErrGroupDecode` on corrupt input. -/
def decodeGroup (groupResult : ByteStr) : Except GetError ByteStr :=
  match base64Decode groupResult with
  | some d => .ok d
  | none => .error .groupDecode

/-- Crawler state relevant to `Get`: the immutable group map (name ↦ Encoded flag) and
    the result cache (name ↦ last artifact), both as first-match association lists. -/
structure Crawler where
  groups : List (String × Bool)
  result : List (String × ByteStr)
deriving DecidableEq

/-- Shallow embedding of `Crawler.needDecode`: decoding is needed when `decode` is set,
    the stored result is non-empty, the group is known and its Encoded flag is set. -/
def Crawler.needDecode (c : Crawler) (groupName : String) (decode : Bool)
    (resultSize : Nat) : Bool :=
  if !decode || resultSize == 0 then false
  else
    match c.groups.lookup groupName with
    | some encoded => encoded
    | none => false

/-- Shallow embedding of `Crawler.Get`. A forced refresh runs `fetchGroup`, whose
    per-subscription outcomes are supplied as `fetched`; storing under `groupName` is
    modelled by prepending to the first-match association list. Result is the crawler
    state after the call together with the data or error. -/
def Crawler.Get (c : Crawler) (groupName : String) (force decode : Bool)
    (fetched : List FetchResult) : Crawler × Except GetError ByteStr :=
  match c.groups.lookup groupName with
  | none => (c, .error .notFoundGroup)
  | some encoded =>
    let c1 :=
      if force then
        { c with result := (groupName, fetchGroupPublish fetched encoded) :: c.result }
      else c
    match c1.result.lookup groupName with
    | none => (c1, .error .notFoundGroup)
    | some groupResult =>
      if c1.needDecode groupName decode groupResult.length then (c1, decodeGroup groupResult)
      else (c1, .ok groupResult)

/-- The specification's description of `get`: unknown group → GroupNotFound; optional
    forced refresh; no artifact ever produced → GroupNotFound; decode requested and group
    encoded and artifact non-empty → base64-decode (DecodeError on corrupt input);
    otherwise the artifact as-is. -/
def getSpec (c : Crawler) (groupName : String) (force decode : Bool)
    (fetched : List FetchResult) : Crawler × Except GetError ByteStr :=
  match c.groups.lookup groupName with
  | none => (c, .error .notFoundGroup)
  | some encoded =>
    let c1 :=
      if force then
        { c with result := (groupName, fetchGroupPublish fetched encoded) :: c.result }
      else c
    match c1.result.lookup groupName with
    | none => (c1, .error .notFoundGroup)
    | some artifact =>
      if decode ∧ encoded = true ∧ artifact ≠ [] then
        match base64Decode artifact with
        | some d => (c1, .ok d)
        | none => (c1, .error .groupDecode)
      else (c1, .ok artifact)

theorem needDecode_iff (c : Crawler) (groupName : String) (decode : Bool)
    (artifact : ByteStr) (encoded : Bool) (hg : c.groups.lookup groupName = some encoded) :
    c.needDecode groupName decode artifact.length = true ↔
      (decode = true ∧ encoded = true ∧ artifact ≠ []) := by
  cases decode with
  | false => simp [Crawler.needDecode]
  | true =>
    by_cases ha : artifact = []
    · subst ha
      simp [Crawler.needDecode]
    · have hlen : (artifact.length == 0) = false := by
        simp [List.length_eq_zero, ha]
      simp [Crawler.needDecode, hlen, hg, ha]

theorem get_decode_branch (c1 : Crawler) (groupName : String) (decode : Bool)
    (artifact : ByteStr) (encoded : Bool)
    (hg : c1.groups.lookup groupName = some encoded) :
    (if c1.needDecode groupName decode artifact.length then (c1, decodeGroup artifact)
     else (c1, Except.ok artifact)) =
    (if decode ∧ encoded = true ∧ artifact ≠ [] then
        match base64Decode artifact with
        | some d => (c1, Except.ok d)
        | none => (c1, Except.error GetError.groupDecode)
      else (c1, Except.ok artifact)) := by
  have hiff := needDecode_iff c1 groupName decode artifact encoded hg
  by_cases hcond : decode = true ∧ encoded = true ∧ artifact ≠ []
  · have h1 : c1.needDecode groupName decode artifact.length = true := hiff.mpr hcond
    have h2 : (decode = true) ∧ encoded = true ∧ artifact ≠ [] := hcond
    rw [if_pos h1, if_pos h2]
    unfold decodeGroup
    cases base64Decode artifact <;> rfl
  · have h1 : ¬ c1.needDecode groupName decode artifact.length = true := by
      rw [hiff]
      exact hcond
    have h2 : ¬ ((decode = true) ∧ encoded = true ∧ artifact ≠ []) := hcond
    rw [if_neg h1, if_neg h2]

/-- C5: `Crawler.Get` behaves exactly as the specification describes: `GroupNotFound` for
unknown groups or groups with no artifact, base64 decoding exactly when `decode` is set,
the group is encoded and the artifact is non-empty (with `DecodeError` on corrupt base64),
the raw artifact otherwise; when no refresh is forced the crawler state — and with it the
stored artifact — is unchanged, also on decode errors. -/
theorem c5_get_matches_spec (c : Crawler) (groupName : String) (force decode : Bool)
    (fetched : List FetchResult) :
    c.Get groupName force decode fetched = getSpec c groupName force decode fetched ∧
    (force = false → (c.Get groupName force decode fetched).1 = c) := by
  constructor
  · unfold Crawler.Get getSpec
    cases hg : c.groups.lookup groupName with
    | none => rfl
    | some encoded =>
      simp only
      cases hr :
          (if force then
            { c with result := (groupName, fetchGroupPublish fetched encoded) :: c.result }
          else c).result.lookup groupName with
      | none => rfl
      | some artifact =>
        simp only
        apply get_decode_branch
        cases force with
        | false => exact hg
        | true => exact hg
  · intro hforce
    subst hforce
    unfold Crawler.Get
    cases hg : c.groups.lookup groupName with
    | none => rfl
    | some encoded =>
      simp only [if_neg Bool.false_ne_true]
      cases hr : c.result.lookup groupName with
      | none => rfl
      | some artifact =>
        simp only
        split <;> rfl

/-- Witness for C5 at a concrete crawler: a known encoded group whose stored artifact is
the base64 encoding of "a", read without force. -/
theorem c5_get_matches_spec_witness :
    (Crawler.Get ⟨[("g", true)], [("g", [89, 81, 61, 61])]⟩ "g" false true []).2 =
        Except.ok [97] ∧
    (Crawler.Get ⟨[("g", true)], [("g", [89, 81, 61, 61])]⟩ "g" false true []).1 =
        ⟨[("g", true)], [("g", [89, 81, 61, 61])]⟩ := by
  have h := c5_get_matches_spec ⟨[("g", true)], [("g", [89, 81, 61, 61])]⟩ "g" false true []
  constructor
  · rw [h.1]
    rfl
  · exact h.2 rfl

/-- Go `unicode.IsSpace`: '\t' (9) through '\r' (13), space, U+0085, U+00A0, and the
    other Unicode white-space code points. -/
def isGoSpace (c : Char) : Bool :=
  let n := c.toNat
  (9 ≤ n && n ≤ 13) || n == 32 || n == 133 || n == 160 || n == 5760 ||
    (8192 ≤ n && n ≤ 8202) || n == 8232 || n == 8233 || n == 8239 || n == 8287 || n == 12288

/-- Shallow embedding of `strings.Fields`: the maximal runs of non-whitespace
    characters, in order. -/
def fields (s : List Char) : List (List Char) :=
  match s with
  | [] => []
  | c :: rest =>
    if isGoSpace c then fields rest
    else
      (c :: rest.takeWhile (fun x => !isGoSpace x)) ::
        fields (rest.dropWhile (fun x => !isGoSpace x))
termination_by s.length
decreasing_by
  · simp only [List.length_cons]
    omega
  · simp only [List.length_cons]
    have h := (List.dropWhile_sublist (l := rest) (p := fun x => !isGoSpace x)).length_le
    omega

/-- Splitting at every single whitespace character, keeping empty pieces: the primitive
    split underlying the specification's "split on any whitespace run". -/
def splitWS : List Char → List (List Char)
  | [] => [[]]
  | c :: rest =>
    if isGoSpace c then [] :: splitWS rest
    else
      match splitWS rest with
      | [] => [[c]]
      | t :: ts => (c :: t) :: ts

/-- Tokens per the specification: the non-empty pieces between whitespace characters. -/
def specTokens (s : List Char) : List (List Char) :=
  (splitWS s).filter (fun t => !t.isEmpty)

theorem splitWS_shape (s : List Char) :
    splitWS s =
      match s.dropWhile (fun x => !isGoSpace x) with
      | [] => [s.takeWhile (fun x => !isGoSpace x)]
      | _ :: rest => s.takeWhile (fun x => !isGoSpace x) :: splitWS rest := by
  induction s with
  | nil => rfl
  | cons c r ih =>
    by_cases hc : isGoSpace c
    · have hq : (fun x => !isGoSpace x) c = false := by simp [hc]
      simp only [splitWS, if_pos hc, List.dropWhile_cons, List.takeWhile_cons, hq,
        Bool.false_eq_true, if_false]
    · have hq : (fun x => !isGoSpace x) c = true := by simp [hc]
      simp only [splitWS, if_neg hc, List.dropWhile_cons, List.takeWhile_cons, hq, if_true]
      rw [ih]
      cases hd : r.dropWhile (fun x => !isGoSpace x) with
      | nil => rfl
      | cons d rest => rfl

theorem dropWhile_head_false {α : Type} {p : α → Bool} {l : List α} {d : α}
    {rest : List α} (h : l.dropWhile p = d :: rest) : p d = false := by
  induction l with
  | nil => simp [List.dropWhile] at h
  | cons a l ih =>
    rw [List.dropWhile_cons] at h
    split at h
    · exact ih h
    · cases h
      next hp => simpa using hp

theorem specTokens_cons_space {c : Char} (r : List Char) (hc : isGoSpace c = true) :
    specTokens (c :: r) = specTokens r := by
  unfold specTokens
  rw [show splitWS (c :: r) = [] :: splitWS r from by simp [splitWS, hc]]
  rfl

theorem specTokens_cons_nonspace {c : Char} (r : List Char) (hc : isGoSpace c = false) :
    specTokens (c :: r) =
      (c :: r.takeWhile (fun x => !isGoSpace x)) ::
        specTokens (r.dropWhile (fun x => !isGoSpace x)) := by
  have hq : (!isGoSpace c) = true := by simp [hc]
  have hshape := splitWS_shape (c :: r)
  rw [List.dropWhile_cons, List.takeWhile_cons] at hshape
  simp only [hq, if_true] at hshape
  cases hd : r.dropWhile (fun x => !isGoSpace x) with
  | nil =>
    rw [hd] at hshape
    unfold specTokens
    rw [hshape]
    rfl
  | cons d rest =>
    rw [hd] at hshape
    have hdspace : isGoSpace d = true := by
      have := dropWhile_head_false hd
      simpa using this
    unfold specTokens
    rw [hshape]
    simp only [List.filter_cons, List.isEmpty_cons, Bool.not_false, if_true]
    rw [show (splitWS (d :: rest)).filter (fun t => !t.isEmpty) = specTokens (d :: rest)
      from rfl]
    rw [specTokens_cons_space rest hdspace]
    rfl

theorem fields_eq_specTokens (s : List Char) : fields s = specTokens s := by
  match s with
  | [] => simp [fields, specTokens, splitWS]
  | c :: r =>
    rw [fields]
    by_cases hc : isGoSpace c = true
    · rw [if_pos hc, specTokens_cons_space r hc, fields_eq_specTokens r]
    · have hc2 : isGoSpace c = false := by simpa using hc
      rw [if_neg hc, specTokens_cons_nonspace r hc2,
        fields_eq_specTokens (r.dropWhile (fun x => !isGoSpace x))]
termination_by s.length
decreasing_by
  · simp only [List.length_cons]
    omega
  · simp only [List.length_cons]
    have h := (List.dropWhile_sublist (l := r) (p := fun x => !isGoSpace x)).length_le
    omega

theorem fields_all_space {s : List Char} (h : ∀ c ∈ s, isGoSpace c = true) :
    fields s = [] := by
  induction s with
  | nil => simp [fields]
  | cons c r ih =>
    rw [fields, if_pos (h c (List.mem_cons_self c r))]
    exact ih fun x hx => h x (List.mem_cons_of_mem c hx)

/-- Shallow embedding of cfg `Prefixes.Match`: true iff some configured prefix is a
    prefix of the token. -/
def Prefixes.Match (prefixes : List (List Char)) (subURL : List Char) : Bool :=
  prefixes.any (fun p => p.isPrefixOf subURL)

/-- Shallow embedding of cfg `Subscription.Filter`: pass through when the token list or
    the prefix set is empty, otherwise keep exactly the matching tokens. -/
def Subscription.Filter (hasPrefixes : List (List Char)) (subURLs : List (List Char)) :
    List (List Char) :=
  if subURLs.isEmpty || hasPrefixes.isEmpty then subURLs
  else subURLs.filter (Prefixes.Match hasPrefixes)

/-- The token list the fetch worker emits for a (decoded) payload: `readSubscription`'s
    `strings.Fields` output passed through `Subscription.Filter`. -/
def fetchWorkerTokens (payload : List Char) (hasPrefixes : List (List Char)) :
    List (List Char) :=
  Subscription.Filter hasPrefixes (fields payload)

/-- C6: the emitted token list is the payload split on runs of Unicode whitespace,
passed through unchanged when no prefixes are configured and otherwise filtered to the
tokens starting with at least one configured prefix; an all-whitespace (or empty)
payload yields the empty list, and no token is ever empty, so trailing whitespace never
produces an extra token. -/
theorem c6_worker_tokens (payload : List Char) (hasPrefixes : List (List Char)) :
    fetchWorkerTokens payload hasPrefixes =
      (if hasPrefixes = [] then specTokens payload
       else (specTokens payload).filter (Prefixes.Match hasPrefixes)) ∧
    ((∀ c ∈ payload, isGoSpace c = true) → fetchWorkerTokens payload hasPrefixes = []) ∧
    (∀ t ∈ fields payload, t ≠ []) := by
  refine ⟨?_, ?_, ?_⟩
  · unfold fetchWorkerTokens Subscription.Filter
    by_cases hp : hasPrefixes = []
    · simp [hp, fields_eq_specTokens]
    · have hp2 : hasPrefixes.isEmpty = false := by simpa [List.isEmpty_iff] using hp
      by_cases hf : fields payload = []
      · rw [if_neg hp]
        have hspec : specTokens payload = [] := by rw [← fields_eq_specTokens, hf]
        simp [hf, hspec]
      · have hf2 : (fields payload).isEmpty = false := by simpa [List.isEmpty_iff] using hf
        rw [if_neg hp]
        simp only [hp2, hf2, Bool.or_false, Bool.false_eq_true, if_false]
        rw [fields_eq_specTokens]
  · intro h
    unfold fetchWorkerTokens Subscription.Filter
    rw [fields_all_space h]
    simp
  · intro t ht
    rw [fields_eq_specTokens] at ht
    have := List.of_mem_filter ht
    simpa [List.isEmpty_iff] using this

/-- Witness for C6 on the all-whitespace payload " \n". -/
theorem c6_worker_tokens_witness : fetchWorkerTokens [' ', '\n'] [['s']] = [] :=
  (c6_worker_tokens [' ', '\n'] [['s']]).2.1 (by decide)

/-- Token bucket state; Go's float64 token arithmetic is modelled with exact rationals
    (the operations used are +, *, /, min, subtraction and comparison). The
    `lastRefillTime` bookkeeping is replaced by passing the elapsed nanoseconds to
    `Allow` explicitly. -/
structure TokenBucket where
  tokens : ℚ
  maxTokens : ℚ
  refillRate : ℚ
  interval : ℚ
deriving DecidableEq

/-- Shallow embedding of `NewTokenBucket`: the bucket starts full. -/
def NewTokenBucket (maxTokens refillRate interval : ℚ) : TokenBucket :=
  ⟨maxTokens, maxTokens, refillRate, interval⟩

/-- Shallow embedding of `TokenBucket.Allow`: refill by elapsed time capped at
    `maxTokens`; consume one token iff at least one whole token is available.
    `elapsedNs` is `now.Sub(lastRefillTime)`. -/
def TokenBucket.Allow (tb : TokenBucket) (elapsedNs : ℚ) : TokenBucket × Bool :=
  let elapsed := elapsedNs / tb.interval
  let t := min (tb.tokens + elapsed * tb.refillRate) tb.maxTokens
  if t < 1 then ({ tb with tokens := t }, false)
  else ({ tb with tokens := t - 1 }, true)

/-- A bucket as returned by `IPRateLimiter.GetBucket`: the shared `IgnoreLimitBucket` or
    a per-key `TokenBucket`. -/
inductive Bucket where
  | ignoreLimit
  | token (tb : TokenBucket)
deriving DecidableEq

/-- Allow on a returned bucket: `IgnoreLimitBucket.Allow` always returns true and keeps
    no state; a token bucket runs `TokenBucket.Allow`. -/
def Bucket.Allow (b : Bucket) (elapsedNs : ℚ) : Bucket × Bool :=
  match b with
  | .ignoreLimit => (.ignoreLimit, true)
  | .token tb =>
    let r := tb.Allow elapsedNs
    (.token r.1, r.2)

/-- IP rate limiter state: the per-key bucket map as a first-match association list, the
    bucket parameters, and the excluded key set. -/
structure IPRateLimiter where
  buckets : List (String × TokenBucket)
  rate : ℚ
  burst : ℚ
  interval : ℚ
  excluded : List String
deriving DecidableEq

/-- Shallow embedding of `IPRateLimiter.getOrCreateBucket`: double-checked creation under
    the exclusive lock; a new bucket has capacity `burst` and rate `rate`. -/
def IPRateLimiter.getOrCreateBucket (irl : IPRateLimiter) (ip : String) :
    TokenBucket × IPRateLimiter :=
  match irl.buckets.lookup ip with
  | some bucket => (bucket, irl)
  | none =>
    let bucket := NewTokenBucket irl.burst irl.rate irl.interval
    (bucket, { irl with buckets := (ip, bucket) :: irl.buckets })

/-- Shallow embedding of `IPRateLimiter.GetBucket`: excluded keys get the ignore bucket
    with no state touched; otherwise the existing bucket is used or one is created. -/
def IPRateLimiter.GetBucket (irl : IPRateLimiter) (ip : String) : Bucket × IPRateLimiter :=
  if ip ∈ irl.excluded then (.ignoreLimit, irl)
  else
    match irl.buckets.lookup ip with
    | some bucket => (.token bucket, irl)
    | none =>
      let r := irl.getOrCreateBucket ip
      (.token r.1, r.2)

/-- C7: for every excluded key, `GetBucket` returns the ignore bucket and leaves the
limiter — in particular its bucket map — unchanged, and `Allow` on the returned bucket
always reports true while touching no bucket state. -/
theorem c7_excluded_always_allowed (irl : IPRateLimiter) (ip : String) (elapsedNs : ℚ)
    (h : ip ∈ irl.excluded) :
    (irl.GetBucket ip).1 = .ignoreLimit ∧
    (irl.GetBucket ip).2 = irl ∧
    ((irl.GetBucket ip).1.Allow elapsedNs) = (.ignoreLimit, true) := by
  unfold IPRateLimiter.GetBucket
  rw [if_pos h]
  exact ⟨rfl, rfl, rfl⟩

/-- Witness for C7 with a concrete excluded key. -/
theorem c7_excluded_always_allowed_witness :
    ((IPRateLimiter.mk [] 1 2 1 ["127.0.0.1"]).GetBucket "127.0.0.1").1.Allow 0 =
      (.ignoreLimit, true) :=
  (c7_excluded_always_allowed (IPRateLimiter.mk [] 1 2 1 ["127.0.0.1"]) "127.0.0.1" 0
    (by simp)).2.2

/-- C10: a new bucket starts full at the burst capacity; `Allow` preserves
0 ≤ tokens ≤ maxTokens (the refill is capped and a token is consumed only when one whole
token is available) given non-negative elapsed time, a positive interval and a
non-negative refill rate; and on a full bucket with capacity ≥ 1 — in particular the
first call on a freshly created bucket — `Allow` returns true. -/
theorem c10_bucket_invariant (tb : TokenBucket) (elapsedNs : ℚ)
    (he : 0 ≤ elapsedNs) (hi : 0 < tb.interval) (hr : 0 ≤ tb.refillRate)
    (hlo : 0 ≤ tb.tokens) (hhi : tb.tokens ≤ tb.maxTokens) :
    (∀ burst rate intv : ℚ, (NewTokenBucket burst rate intv).tokens = burst ∧
      (NewTokenBucket burst rate intv).maxTokens = burst) ∧
    (0 ≤ (tb.Allow elapsedNs).1.tokens ∧
      (tb.Allow elapsedNs).1.tokens ≤ (tb.Allow elapsedNs).1.maxTokens ∧
      (tb.Allow elapsedNs).1.maxTokens = tb.maxTokens) ∧
    (tb.tokens = tb.maxTokens → 1 ≤ tb.maxTokens → (tb.Allow elapsedNs).2 = true) := by
  have hfill : 0 ≤ elapsedNs / tb.interval * tb.refillRate :=
    mul_nonneg (div_nonneg he (le_of_lt hi)) hr
  have ht0 : 0 ≤ min (tb.tokens + elapsedNs / tb.interval * tb.refillRate) tb.maxTokens :=
    le_min (add_nonneg hlo hfill) (le_trans hlo hhi)
  have htmax :
      min (tb.tokens + elapsedNs / tb.interval * tb.refillRate) tb.maxTokens ≤
        tb.maxTokens :=
    min_le_right _ _
  refine ⟨fun burst rate intv => ⟨rfl, rfl⟩, ?_, ?_⟩
  · simp only [TokenBucket.Allow]
    split
    · exact ⟨ht0, htmax, rfl⟩
    next hlt =>
      have h1 : (1 : ℚ) ≤ min (tb.tokens + elapsedNs / tb.interval * tb.refillRate)
          tb.maxTokens := not_lt.mp hlt
      refine ⟨by linarith, ?_, rfl⟩
      show min (tb.tokens + elapsedNs / tb.interval * tb.refillRate) tb.maxTokens - 1 ≤
        tb.maxTokens
      linarith
  · intro hfull hburst
    simp only [TokenBucket.Allow]
    have hmin :
        min (tb.tokens + elapsedNs / tb.interval * tb.refillRate) tb.maxTokens =
          tb.maxTokens := by
      rw [hfull]
      exact min_eq_right (le_add_of_nonneg_right hfill)
    rw [hmin, if_neg (not_lt.mpr hburst)]

/-- Witness for C10: a fresh bucket of capacity 2 and rate 1 allows its first call. -/
theorem c10_bucket_invariant_witness :
    0 ≤ ((NewTokenBucket 2 1 5).Allow 0).1.tokens ∧
    ((NewTokenBucket 2 1 5).Allow 0).2 = true := by
  have h := c10_bucket_invariant (NewTokenBucket 2 1 5) 0 (by norm_num)
    (by norm_num [NewTokenBucket]) (by norm_num [NewTokenBucket])
    (by norm_num [NewTokenBucket]) (by norm_num [NewTokenBucket])
  exact ⟨h.2.1.1, h.2.2 rfl (by norm_num [NewTokenBucket])⟩

/-- Go `strings.TrimRight(path, "/")`: drop trailing slash characters. -/
def trimRightSlash (p : List Char) : List Char :=
  (p.reverse.dropWhile (fun c => c = '/')).reverse

/-- Outcome of the health-check middleware for one request: a response written by the
    middleware itself, or fall-through to the next handler in the pipeline. -/
inductive HcResult where
  | handled (status : Nat) (contentType : List Char) (body : List Char)
  | passThrough
deriving DecidableEq

/-- Shallow embedding of `server.HealthCheckMiddleware`: a request whose path equals
    "/ok" after trimming trailing slashes — regardless of method — gets status 200
    (the implicit status of the first body write), Content-Type text/plain and body
    "OK"; every other request goes to the next handler. -/
def HealthCheckMiddleware (path : List Char) : HcResult :=
  if trimRightSlash path = "/ok".toList then
    .handled 200 "text/plain".toList "OK".toList
  else .passThrough

/-- C9 counterexample: a GET for "/health" is not handled by the middleware — it falls
through to the next handler instead of receiving a 200 health response. -/
theorem c9_counterexample :
    HealthCheckMiddleware "/health".toList = HcResult.passThrough := by
  decide

/-- C9 amended: only the path "/ok" (after trimming trailing slashes) is special-cased,
for every request method; it receives status 200 with Content-Type text/plain and the
fixed body "OK" with no version information, and every request with any other path —
including "/health" and "/ping" — falls through to the next handler. -/
theorem c9_amended_health_check (path : List Char) :
    (trimRightSlash path = "/ok".toList →
      HealthCheckMiddleware path = .handled 200 "text/plain".toList "OK".toList) ∧
    (trimRightSlash path ≠ "/ok".toList → HealthCheckMiddleware path = .passThrough) := by
  constructor
  · intro h
    unfold HealthCheckMiddleware
    rw [if_pos h]
  · intro h
    unfold HealthCheckMiddleware
    rw [if_neg h]

/-- Witness for C9 on "/ok/" (trailing slash trimmed). -/
theorem c9_amended_health_check_witness :
    HealthCheckMiddleware "/ok/".toList = .handled 200 "text/plain".toList "OK".toList :=
  (c9_amended_health_check "/ok/".toList).1 (by decide)

end SMerge
